import Mathlib

/-!
Shallow embedding of the imtui ncurses backend (src/imtui-impl-ncurses.cpp):
the differential screen renderer `ImTui_ImplNcurses_DrawScreen`, the input
decoder `ImTui_ImplNcurses_NewFrame`, and the frame pacer `VSync`.

Machine integers are modelled as `Nat` (with explicit `% 2^w` where the C code
truncates), terminal side effects as an explicit list of write operations, and
the ncurses input queue as an explicit list of events.
-/

namespace ImtuiNcurses

/-! ## Screen buffer

Modelled from the spec: `ImTui::TScreen` (declared in the missing header
imtui/imtui-impl-text.h) is a 2D grid of cells with explicit width `nx` and
height `ny`; each cell packs a 16-bit character code, an 8-bit foreground
color index and an 8-bit background color index into one 32-bit integer.
We store the cells row-major in a list; `data` at index `y*nx + x` is the
cell at row `y`, column `x`, exactly as indexed by the .cpp source. -/
structure TScreen where
  nx : Nat
  ny : Nat
  data : List Nat
deriving DecidableEq, Repr

/-- Character code of a cell: `cell & 0x0000FFFF` (line 394). -/
def cellChar (cell : Nat) : Nat := cell % 65536

/-- Foreground color of a cell: `(cell & 0x00FF0000) >> 16` (line 372). -/
def cellFg (cell : Nat) : Nat := (cell / 65536) % 256

/-- Background color of a cell: `(cell & 0xFF000000) >> 24` (line 373). -/
def cellBg (cell : Nat) : Nat := (cell / 16777216) % 256

/-- Color-pair index of a cell: `p = b*256 + f` (line 374). -/
def cellPairIdx (cell : Nat) : Nat := cellBg cell * 256 + cellFg cell

/-- Byte stored into the `curs` run buffer for a cell (line 395):
`curs[ic++] = c > 0 ? c : ' '` where `curs` holds `uint8_t`, so the
16-bit character code is truncated to its low 8 bits on assignment. -/
def cellByte (cell : Nat) : Nat :=
  (if cellChar cell > 0 then cellChar cell else 32) % 256

/-! ## Terminal write operations emitted by the renderer -/

/-- Terminal operations issued inside `ImTui_ImplNcurses_DrawScreen`:
`moveTo y` is `move(y, 0)`, `allocPair` is `init_pair`, `setPair` is
`attron(COLOR_PAIR(..))`, and `emit` is `addstr` of a byte run. -/
inductive WriteOp where
  | moveTo (y : Nat)
  | allocPair (handle f b : Nat)
  | setPair (handle : Nat)
  | emit (bytes : List Nat)
deriving DecidableEq, Repr

/-- Bytes actually sent by `addstr((char *) curs.data())` (lines 384-388,
398-403): `curs[ic] = 0` terminates the buffer, and `addstr` reads the
accumulated run only up to the first NUL byte. -/
def flushRun (run : List Nat) : List Nat := run.takeWhile (fun x => x != 0)

/-! ## Color-pair cache

The statics `colPairs` (an array of `(bool, int)` indexed by the pair index
`p`, line 336) and `nColPairs` (line 332). We represent the allocated
entries of the array as an association list from `p` to the allocated
handle: `colPairs[p].first = true` iff `p` has a binding, and
`colPairs[p].second` is the bound handle. -/
structure ColPairState where
  colPairs : List (Nat × Nat)
  nColPairs : Nat
deriving DecidableEq, Repr

/-- Initial values of the statics: no pair allocated, `nColPairs = 1`. -/
def initColPairs : ColPairState := ⟨[], 1⟩

/-- Lazy color-pair allocation (lines 376-381): if `colPairs[p].first` is
false, call `init_pair(nColPairs, f, b)`, record the handle and increment
`nColPairs`; otherwise reuse the cached handle with no terminal call.
Returns the new cache state, the handle for the pair, and the emitted ops. -/
def ensurePair (cp : ColPairState) (f b : Nat) : ColPairState × Nat × List WriteOp :=
  let p := b * 256 + f
  match cp.colPairs.lookup p with
  | some h => (cp, h, [])
  | none =>
      (⟨cp.colPairs ++ [(p, cp.nColPairs)], cp.nColPairs + 1⟩,
       cp.nColPairs,
       [WriteOp.allocPair cp.nColPairs f b])

/-! ## Row rendering (lines 368-403) -/

/-- Accumulator for the per-row cell loop: ops emitted so far, the color-pair
cache, the `lastp` tracker, and the pending `curs` byte run. -/
structure RowAcc where
  ops : List WriteOp
  cp : ColPairState
  lastp : Nat
  run : List Nat
deriving Repr

/-- One iteration of the `for x` loop (lines 370-396): ensure the cell's
color pair is allocated; on a pair change flush the accumulated run and
switch the active pair with `attron`; append the cell's byte to the run. -/
def cellStep (acc : RowAcc) (cell : Nat) : RowAcc :=
  let p := cellPairIdx cell
  let e := ensurePair acc.cp (cellFg cell) (cellBg cell)
  if acc.lastp != p then
    { ops := acc.ops ++ e.2.2 ++ [WriteOp.emit (flushRun acc.run), WriteOp.setPair e.2.1],
      cp := e.1, lastp := p, run := [cellByte cell] }
  else
    { ops := acc.ops ++ e.2.2, cp := e.1, lastp := acc.lastp, run := acc.run ++ [cellByte cell] }

/-- The `for x` loop over the cells of one row. -/
def drawCells (acc : RowAcc) : List Nat → RowAcc
  | [] => acc
  | cell :: rest => drawCells (cellStep acc cell) rest

/-- Rendering of one dirty row `y` (lines 368-403): `move(y, 0)`, the cell
loop with `lastp` initialized to `0xFFFFFFFF`, and the final flush of the
remaining run. Returns the emitted ops and the updated pair cache. -/
def drawRow (cp : ColPairState) (y : Nat) (row : List Nat) : List WriteOp × ColPairState :=
  let a := drawCells ⟨[WriteOp.moveTo y], cp, 4294967295, []⟩ row
  (a.ops ++ [WriteOp.emit (flushRun a.run)], a.cp)

/-! ## The row loop of DrawScreen (lines 356-408) -/

/-- Row `y` of a row-major cell list with row width `nx`. -/
def sliceRow (d : List Nat) (nx y : Nat) : List Nat := (d.drop (y * nx)).take nx

/-- The per-dirty-row `memcpy` into `screenPrev` (line 406): overwrite the
`nx` cells starting at `y*nx`. -/
def setRow (d : List Nat) (nx y : Nat) (row : List Nat) : List Nat :=
  d.take (y * nx) ++ row ++ d.drop (y * nx + nx)

/-- Accumulator for the row loop: emitted ops, the color-pair cache, and the
cell data of `screenPrev`. -/
structure DrawAcc where
  ops : List WriteOp
  cp : ColPairState
  prevData : List Nat
deriving Repr

/-- One iteration of the `for y` loop (lines 356-408): when `compare` holds,
test the row against `screenPrev` and skip it if identical; otherwise
render the row and, when `compare` holds, copy it into `screenPrev`. -/
def drawRowStep (screen : TScreen) (compare : Bool) (acc : DrawAcc) (y : Nat) : DrawAcc :=
  let row := sliceRow screen.data screen.nx y
  let prow := sliceRow acc.prevData screen.nx y
  if compare && (prow == row) then acc
  else
    let r := drawRow acc.cp y row
    { ops := acc.ops ++ r.1,
      cp := r.2,
      prevData := if compare then setRow acc.prevData screen.nx y row else acc.prevData }

/-- The `for y` loop over a list of row indices. -/
def drawRows (screen : TScreen) (compare : Bool) (acc : DrawAcc) : List Nat → DrawAcc
  | [] => acc
  | y :: ys => drawRows screen compare (drawRowStep screen compare acc y) ys

/-! ## DrawScreen (lines 338-415) -/

/-- Persistent state of the renderer: the statics `screenPrev` (line 334),
`colPairs`/`nColPairs`, and `nActiveFrames` (line 333, an `int` that is
decremented without bound, hence `Int`). -/
structure DrawState where
  screenPrev : TScreen
  cp : ColPairState
  nActiveFrames : Int
deriving Repr

/-- Initial values of the renderer statics: default-constructed `screenPrev`
(zero size), empty pair cache, `nActiveFrames = 10`. -/
def initDrawState : DrawState := ⟨⟨0, 0, []⟩, initColPairs, 10⟩

/-- Model of `ImTui_ImplNcurses_DrawScreen(active)` (lines 338-415). Returns
the list of terminal write operations issued, the new renderer state, and
the `active` flag passed to `g_vsync.wait` (the value of
`nActiveFrames --> 0`). When the screen dimensions differ from
`screenPrev`, `compare` is false: every row is rendered without comparison
and the whole buffer is copied into `screenPrev` at the end (line 411);
otherwise only rows that differ are rendered and copied (line 406). -/
def ImTui_ImplNcurses_DrawScreen (st : DrawState) (screen : TScreen) (active : Bool) :
    List WriteOp × DrawState × Bool :=
  let nAF : Int := if active then 10 else st.nActiveFrames
  let nx := screen.nx
  let ny := screen.ny
  let compare := (st.screenPrev.nx == nx) && (st.screenPrev.ny == ny)
  let a := drawRows screen compare ⟨[], st.cp, st.screenPrev.data⟩ (List.range ny)
  let prevData := if compare then a.prevData else screen.data.take (nx * ny)
  (a.ops, ⟨⟨nx, ny, prevData⟩, a.cp, nAF - 1⟩, decide (nAF > 0))

/-! # Basic lemmas about the renderer -/

/-- Rows identical to the cached previous rows are skipped without emitting
anything and without touching any state. -/
theorem drawRows_clean (screen : TScreen) (acc : DrawAcc) (ys : List Nat)
    (h : ∀ y ∈ ys, sliceRow acc.prevData screen.nx y = sliceRow screen.data screen.nx y) :
    drawRows screen true acc ys = acc := by
  induction ys with
  | nil => rfl
  | cons y ys ih =>
    have hy : sliceRow acc.prevData screen.nx y = sliceRow screen.data screen.nx y :=
      h y (by simp)
    have hstep : drawRowStep screen true acc y = acc := by
      unfold drawRowStep
      simp [hy]
    rw [drawRows, hstep]
    exact ih (fun z hz => h z (by simp [hz]))

/-- C1: for every call to `ImTui_ImplNcurses_DrawScreen` in which the current
screen buffer has the same dimensions as the cached previous buffer and every
cell is identical to the previous frame, the renderer issues zero terminal
write operations: no `move`, no `init_pair`, no `attron`, and no `addstr`. -/
theorem unchanged_frame_emits_no_writes (st : DrawState) (screen : TScreen) (active : Bool)
    (hx : st.screenPrev.nx = screen.nx) (hy : st.screenPrev.ny = screen.ny)
    (hd : st.screenPrev.data = screen.data) :
    (ImTui_ImplNcurses_DrawScreen st screen active).1 = [] := by
  unfold ImTui_ImplNcurses_DrawScreen
  simp only [hx, hy, beq_self_eq_true, Bool.and_self]
  rw [drawRows_clean screen ⟨[], st.cp, st.screenPrev.data⟩ (List.range screen.ny)
    (fun y _ => by rw [hd])]

/-- Witness for C1 at a concrete unchanged 2x2 frame. -/
theorem unchanged_frame_emits_no_writes_witness :
    (⟨⟨2, 2, [1, 2, 3, 4]⟩, initColPairs, (5 : Int)⟩ : DrawState).screenPrev.nx = (⟨2, 2, [1, 2, 3, 4]⟩ : TScreen).nx ∧
    (ImTui_ImplNcurses_DrawScreen ⟨⟨2, 2, [1, 2, 3, 4]⟩, initColPairs, 5⟩ ⟨2, 2, [1, 2, 3, 4]⟩ true).1 = [] :=
  ⟨rfl, unchanged_frame_emits_no_writes ⟨⟨2, 2, [1, 2, 3, 4]⟩, initColPairs, 5⟩ ⟨2, 2, [1, 2, 3, 4]⟩ true rfl rfl rfl⟩

/-- Appending row-index lists composes the row loop. -/
theorem drawRows_append (screen : TScreen) (c : Bool) (acc : DrawAcc) (l1 l2 : List Nat) :
    drawRows screen c acc (l1 ++ l2) = drawRows screen c (drawRows screen c acc l1) l2 := by
  induction l1 generalizing acc with
  | nil => rfl
  | cons y ys ih => rw [List.cons_append, drawRows, drawRows, ih]

/-- The `screenPrev` update of one comparing row step, as a function of the
previous data alone. -/
theorem drawRowStep_prevData (screen : TScreen) (acc : DrawAcc) (y : Nat) :
    (drawRowStep screen true acc y).prevData =
      if sliceRow acc.prevData screen.nx y == sliceRow screen.data screen.nx y
      then acc.prevData
      else setRow acc.prevData screen.nx y (sliceRow screen.data screen.nx y) := by
  unfold drawRowStep
  simp only [Bool.true_and]
  split <;> simp_all

/-- After the comparing row loop has processed rows `0..n-1`, the cached
previous data agrees with the current screen on those rows and is untouched
beyond them. -/
theorem drawRows_prevData_sync (screen : TScreen) (n : Nat) (hn : n ≤ screen.ny)
    (hlen : screen.data.length = screen.nx * screen.ny) :
    ∀ ops0 cp0 prevData0, prevData0.length = screen.nx * screen.ny →
      (drawRows screen true ⟨ops0, cp0, prevData0⟩ (List.range n)).prevData =
        screen.data.take (n * screen.nx) ++ prevData0.drop (n * screen.nx) := by
  induction n with
  | zero => intro ops0 cp0 prevData0 _; simp [drawRows]
  | succ n ih =>
    intro ops0 cp0 prevData0 hplen
    have hn' : n ≤ screen.ny := Nat.le_of_succ_le hn
    have hle : n * screen.nx ≤ screen.nx * screen.ny := by
      calc n * screen.nx ≤ screen.ny * screen.nx := Nat.mul_le_mul_right _ hn'
        _ = screen.nx * screen.ny := Nat.mul_comm _ _
    rw [List.range_succ, drawRows_append, drawRows, drawRows, drawRowStep_prevData,
      ih hn' ops0 cp0 prevData0 hplen]
    have hlt : (screen.data.take (n * screen.nx)).length = n * screen.nx := by
      rw [List.length_take]; omega
    have hdropA : (screen.data.take (n * screen.nx) ++ prevData0.drop (n * screen.nx)).drop
        (n * screen.nx) = prevData0.drop (n * screen.nx) := by
      rw [List.drop_append_eq_append_drop, hlt, List.drop_eq_nil_of_le (le_of_eq hlt),
        Nat.sub_self, List.nil_append, List.drop_zero]
    have hslice : sliceRow (screen.data.take (n * screen.nx) ++
        prevData0.drop (n * screen.nx)) screen.nx n =
        (prevData0.drop (n * screen.nx)).take screen.nx := by
      unfold sliceRow
      rw [hdropA]
    have htake_succ : screen.data.take ((n + 1) * screen.nx) =
        screen.data.take (n * screen.nx) ++ (screen.data.drop (n * screen.nx)).take screen.nx := by
      rw [Nat.succ_mul, List.take_add]
    have hdrop_succ : prevData0.drop ((n + 1) * screen.nx) =
        (prevData0.drop (n * screen.nx)).drop screen.nx := by
      rw [List.drop_drop, Nat.succ_mul]
    split
    · next heq =>
      have heq' : (prevData0.drop (n * screen.nx)).take screen.nx =
          sliceRow screen.data screen.nx n := by
        rw [← hslice]; exact beq_iff_eq.mp (by assumption)
      rw [htake_succ, hdrop_succ]
      conv_lhs => rw [← List.take_append_drop screen.nx (prevData0.drop (n * screen.nx))]
      rw [heq']
      unfold sliceRow
      rw [List.append_assoc]
    · unfold setRow
      rw [htake_succ, hdrop_succ]
      have h1 : (screen.data.take (n * screen.nx) ++ prevData0.drop (n * screen.nx)).take
          (n * screen.nx) = screen.data.take (n * screen.nx) := by
        rw [List.take_append_eq_append_take, hlt, Nat.sub_self, List.take_zero,
          List.append_nil, List.take_of_length_le (le_of_eq hlt)]
      have h2 : (screen.data.take (n * screen.nx) ++ prevData0.drop (n * screen.nx)).drop
          (n * screen.nx + screen.nx) = (prevData0.drop (n * screen.nx)).drop screen.nx := by
        rw [List.drop_append_eq_append_drop, hlt,
          List.drop_eq_nil_of_le (by omega), List.nil_append, Nat.add_sub_cancel_left]
      rw [h1, h2]
      unfold sliceRow
      rw [List.append_assoc]

/-- Ops already emitted stay in the output of the cell loop. -/
theorem drawCells_ops_mono (cells : List Nat) :
    ∀ acc : RowAcc, ∀ o ∈ acc.ops, o ∈ (drawCells acc cells).ops := by
  induction cells with
  | nil => intro acc o ho; exact ho
  | cons cell rest ih =>
    intro acc o ho
    rw [drawCells]
    refine ih _ o ?_
    unfold cellStep
    dsimp only
    split <;> simp [ho]

/-- The ops of a rendered row always contain the `move(y, 0)` call. -/
theorem drawRow_mem_moveTo (cp : ColPairState) (y : Nat) (row : List Nat) :
    WriteOp.moveTo y ∈ (drawRow cp y row).1 := by
  unfold drawRow
  simp only [List.mem_append]
  exact Or.inl (drawCells_ops_mono row ⟨[WriteOp.moveTo y], cp, 4294967295, []⟩ _ (by simp))

/-- Ops already emitted stay in the output of the row loop. -/
theorem drawRows_ops_mono (screen : TScreen) (c : Bool) (ys : List Nat) :
    ∀ acc : DrawAcc, ∀ o ∈ acc.ops, o ∈ (drawRows screen c acc ys).ops := by
  induction ys with
  | nil => intro acc o ho; exact ho
  | cons y ys ih =>
    intro acc o ho
    rw [drawRows]
    refine ih _ o ?_
    unfold drawRowStep
    dsimp only
    split
    · exact ho
    · simp [ho]

/-- With comparison disabled, the row loop renders every row: the output
contains the `move` call of each processed row. -/
theorem drawRows_false_mem_moveTo (screen : TScreen) (ys : List Nat) :
    ∀ acc : DrawAcc, ∀ y ∈ ys, WriteOp.moveTo y ∈ (drawRows screen false acc ys).ops := by
  induction ys with
  | nil => intro acc y hy; simp at hy
  | cons z zs ih =>
    intro acc y hy
    rcases List.mem_cons.mp hy with h | h
    · subst h
      rw [drawRows]
      refine drawRows_ops_mono screen false zs _ _ ?_
      unfold drawRowStep
      dsimp only
      simp [drawRow_mem_moveTo]
    · rw [drawRows]; exact ih _ y h

/-- C2: after every call to `ImTui_ImplNcurses_DrawScreen`, the cached
previous buffer `screenPrev` equals the current screen buffer in dimensions
and cell contents; moreover, when the dimensions changed since the last
call, every row is repainted (each row's `move` appears in the output). -/
theorem drawscreen_resyncs_screenPrev (st : DrawState) (screen : TScreen) (active : Bool)
    (hlen : screen.data.length = screen.nx * screen.ny)
    (hplen : st.screenPrev.data.length = st.screenPrev.nx * st.screenPrev.ny) :
    (ImTui_ImplNcurses_DrawScreen st screen active).2.1.screenPrev =
      ⟨screen.nx, screen.ny, screen.data⟩ ∧
    (¬(st.screenPrev.nx = screen.nx ∧ st.screenPrev.ny = screen.ny) →
      ∀ y < screen.ny, WriteOp.moveTo y ∈ (ImTui_ImplNcurses_DrawScreen st screen active).1) := by
  by_cases hc : st.screenPrev.nx = screen.nx ∧ st.screenPrev.ny = screen.ny
  · obtain ⟨hx, hy⟩ := hc
    have hcb : ((st.screenPrev.nx == screen.nx) && (st.screenPrev.ny == screen.ny)) = true := by
      simp [hx, hy]
    constructor
    · unfold ImTui_ImplNcurses_DrawScreen
      simp only [hcb, if_pos rfl]
      have hsync := drawRows_prevData_sync screen screen.ny le_rfl hlen [] st.cp
        st.screenPrev.data (by rw [hplen, hx, hy])
      simp only [TScreen.mk.injEq, true_and]
      rw [hsync, Nat.mul_comm, ← hlen, List.take_length,
        List.drop_eq_nil_of_le (by rw [hplen, hx, hy, hlen, Nat.mul_comm]), List.append_nil]
      simp
    · intro hne
      exact absurd ⟨hx, hy⟩ hne
  · have hcb : ((st.screenPrev.nx == screen.nx) && (st.screenPrev.ny == screen.ny)) = false := by
      rcases Decidable.not_and_iff_or_not.mp hc with h | h <;> simp [h]
    constructor
    · unfold ImTui_ImplNcurses_DrawScreen
      simp only [hcb]
      simp only [Bool.false_eq_true, if_false, TScreen.mk.injEq, true_and]
      exact List.take_of_length_le (le_of_eq hlen)
    · intro _ y hylt
      unfold ImTui_ImplNcurses_DrawScreen
      simp only [hcb]
      exact drawRows_false_mem_moveTo screen (List.range screen.ny) _ y
        (List.mem_range.mpr hylt)

/-- Witness for C2 at a concrete resize: previous buffer 0x0, new screen 1x1. -/
theorem drawscreen_resyncs_screenPrev_witness :
    ((⟨1, 1, [7]⟩ : TScreen).data.length = 1 * 1) ∧
    ((ImTui_ImplNcurses_DrawScreen initDrawState ⟨1, 1, [7]⟩ false).2.1.screenPrev =
        ⟨1, 1, [7]⟩ ∧
      (¬((0 : Nat) = 1 ∧ (0 : Nat) = 1) →
        ∀ y < 1, WriteOp.moveTo y ∈ (ImTui_ImplNcurses_DrawScreen initDrawState ⟨1, 1, [7]⟩ false).1)) :=
  ⟨rfl, drawscreen_resyncs_screenPrev initDrawState ⟨1, 1, [7]⟩ false rfl rfl⟩

/-- Length of a row slice inside a well-formed buffer. -/
theorem length_sliceRow (d : List Nat) (nx y : Nat) (h : y * nx + nx ≤ d.length) :
    (sliceRow d nx y).length = nx := by
  unfold sliceRow
  rw [List.length_take, List.length_drop]
  omega

/-- Elements of a row slice, expressed on the flat buffer. -/
theorem getD_sliceRow (d : List Nat) (nx y t : Nat) (ht : t < nx)
    (h : y * nx + nx ≤ d.length) :
    (sliceRow d nx y).getD t 0 = d.getD (y * nx + t) 0 := by
  have hl : t < (sliceRow d nx y).length := by rw [length_sliceRow d nx y h]; exact ht
  have hd : y * nx + t < d.length := by omega
  rw [List.getD_eq_getElem _ _ hl, List.getD_eq_getElem _ _ hd]
  unfold sliceRow
  simp only [List.getElem_take, List.getElem_drop]

/-- Two buffers that agree on all cells of row `y` have equal row slices. -/
theorem sliceRow_congr (d1 d2 : List Nat) (nx y : Nat)
    (h1 : y * nx + nx ≤ d1.length) (h2 : y * nx + nx ≤ d2.length)
    (hp : ∀ t < nx, d1.getD (y * nx + t) 0 = d2.getD (y * nx + t) 0) :
    sliceRow d1 nx y = sliceRow d2 nx y := by
  apply List.ext_getElem
  · rw [length_sliceRow d1 nx y h1, length_sliceRow d2 nx y h2]
  · intro t ht1 ht2
    have ht : t < nx := by rw [length_sliceRow d1 nx y h1] at ht1; exact ht1
    have e1 := getD_sliceRow d1 nx y t ht h1
    have e2 := getD_sliceRow d2 nx y t ht h2
    rw [List.getD_eq_getElem _ _ ht1] at e1
    rw [List.getD_eq_getElem _ _ ht2] at e2
    rw [e1, e2]
    exact hp t ht

/-- Two buffers that differ at a cell of row `y` have different row slices. -/
theorem sliceRow_ne_of_getD_ne (d1 d2 : List Nat) (nx y t : Nat) (ht : t < nx)
    (h1 : y * nx + nx ≤ d1.length) (h2 : y * nx + nx ≤ d2.length)
    (hne : d1.getD (y * nx + t) 0 ≠ d2.getD (y * nx + t) 0) :
    sliceRow d1 nx y ≠ sliceRow d2 nx y := by
  intro hEq
  apply hne
  have hcast := congrArg (fun l => l.getD t 0) hEq
  simp only at hcast
  rw [getD_sliceRow d1 nx y t ht h1, getD_sliceRow d2 nx y t ht h2] at hcast
  exact hcast

/-- Overwriting row `r` leaves every later row slice unchanged. -/
theorem sliceRow_setRow_gt (d row : List Nat) (nx r y : Nat)
    (hrow : row.length = nx) (hd : r * nx + nx ≤ d.length) (hry : r < y) :
    sliceRow (setRow d nx r row) nx y = sliceRow d nx y := by
  have hdt : (d.take (r * nx)).length = r * nx := by
    rw [List.length_take]; omega
  have hmul : r * nx + nx ≤ y * nx := by
    calc r * nx + nx = (r + 1) * nx := by ring
      _ ≤ y * nx := Nat.mul_le_mul_right _ hry
  unfold sliceRow setRow
  rw [List.append_assoc, List.drop_append_eq_append_drop, hdt,
    List.drop_eq_nil_of_le (by omega : (d.take (r * nx)).length ≤ y * nx),
    List.nil_append, List.drop_append_eq_append_drop, hrow,
    List.drop_eq_nil_of_le (by omega : row.length ≤ y * nx - r * nx),
    List.nil_append, List.drop_drop]
  congr 2
  omega

/-- C3: when dimensions are unchanged and exactly one cell (at flat index `i`)
differs from the cached previous buffer, `ImTui_ImplNcurses_DrawScreen`
emits exactly the write operations of the row `i / nx` containing that cell;
every other row is skipped entirely. -/
theorem single_cell_change_writes_one_row (st : DrawState) (screen : TScreen) (active : Bool)
    (i : Nat)
    (hx : st.screenPrev.nx = screen.nx) (hy : st.screenPrev.ny = screen.ny)
    (hlen : screen.data.length = screen.nx * screen.ny)
    (hplen : st.screenPrev.data.length = screen.nx * screen.ny)
    (hi : i < screen.nx * screen.ny)
    (hne : st.screenPrev.data.getD i 0 ≠ screen.data.getD i 0)
    (heq : ∀ j < screen.nx * screen.ny, j ≠ i →
      st.screenPrev.data.getD j 0 = screen.data.getD j 0) :
    (ImTui_ImplNcurses_DrawScreen st screen active).1 =
      (drawRow st.cp (i / screen.nx)
        (sliceRow screen.data screen.nx (i / screen.nx))).1 := by
  have h0 : 0 < screen.nx := by
    rcases Nat.eq_zero_or_pos screen.nx with h | h
    · rw [h, Nat.zero_mul] at hi; omega
    · exact h
  have hr : i / screen.nx < screen.ny := by
    rw [Nat.div_lt_iff_lt_mul h0, Nat.mul_comm]
    exact hi
  have hir : i / screen.nx * screen.nx + i % screen.nx = i := by
    rw [Nat.mul_comm]
    exact Nat.div_add_mod i screen.nx
  have himod : i % screen.nx < screen.nx := Nat.mod_lt _ h0
  have hbound : ∀ y, y < screen.ny → y * screen.nx + screen.nx ≤ screen.nx * screen.ny := by
    intro y hy'
    calc y * screen.nx + screen.nx = (y + 1) * screen.nx := by ring
      _ ≤ screen.ny * screen.nx := Nat.mul_le_mul_right _ hy'
      _ = screen.nx * screen.ny := Nat.mul_comm _ _
  have hclean : ∀ y, y < screen.ny → y ≠ i / screen.nx →
      sliceRow st.screenPrev.data screen.nx y = sliceRow screen.data screen.nx y := by
    intro y hy' hyr
    apply sliceRow_congr
    · rw [hplen]; exact hbound y hy'
    · rw [hlen]; exact hbound y hy'
    · intro t ht
      apply heq
      · have := hbound y hy'; omega
      · intro hcontra
        apply hyr
        have hdiv : (y * screen.nx + t) / screen.nx = y := by
          rw [Nat.mul_comm y screen.nx, Nat.mul_add_div h0, Nat.div_eq_of_lt ht, Nat.add_zero]
        rw [← hcontra, hdiv]
  have hdirty : sliceRow st.screenPrev.data screen.nx (i / screen.nx) ≠
      sliceRow screen.data screen.nx (i / screen.nx) := by
    apply sliceRow_ne_of_getD_ne _ _ _ _ (i % screen.nx) himod
    · rw [hplen]; exact hbound _ hr
    · rw [hlen]; exact hbound _ hr
    · rw [hir]; exact hne
  have hrowlen : (sliceRow screen.data screen.nx (i / screen.nx)).length = screen.nx :=
    length_sliceRow _ _ _ (by rw [hlen]; exact hbound _ hr)
  have hcb : ((st.screenPrev.nx == screen.nx) && (st.screenPrev.ny == screen.ny)) = true := by
    simp [hx, hy]
  have hsplit : List.range screen.ny =
      (List.range (i / screen.nx) ++ [i / screen.nx]) ++
        (List.range (screen.ny - (i / screen.nx + 1))).map ((i / screen.nx + 1) + ·) := by
    rw [← List.range_succ, ← List.range_add]
    congr 1
    omega
  have hstep : drawRowStep screen true ⟨[], st.cp, st.screenPrev.data⟩ (i / screen.nx) =
      ⟨[] ++ (drawRow st.cp (i / screen.nx) (sliceRow screen.data screen.nx (i / screen.nx))).1,
       (drawRow st.cp (i / screen.nx) (sliceRow screen.data screen.nx (i / screen.nx))).2,
       setRow st.screenPrev.data screen.nx (i / screen.nx)
         (sliceRow screen.data screen.nx (i / screen.nx))⟩ := by
    unfold drawRowStep
    dsimp only
    rw [beq_eq_false_iff_ne.mpr hdirty]
    simp
  unfold ImTui_ImplNcurses_DrawScreen
  simp only [hcb, Bool.and_self]
  rw [hsplit, drawRows_append, drawRows_append,
    drawRows_clean screen ⟨[], st.cp, st.screenPrev.data⟩ (List.range (i / screen.nx))
      (fun y hyIn => hclean y (lt_trans (List.mem_range.mp hyIn) hr)
        (Nat.ne_of_lt (List.mem_range.mp hyIn)))]
  simp only [drawRows]
  rw [hstep,
    drawRows_clean screen _ _ (fun y hyIn => by
      rcases List.mem_map.mp hyIn with ⟨t, htIn, rfl⟩
      have htlt := List.mem_range.mp htIn
      have hygt : i / screen.nx < i / screen.nx + 1 + t := by omega
      have hylt : i / screen.nx + 1 + t < screen.ny := by omega
      dsimp only
      rw [sliceRow_setRow_gt _ _ _ _ _ hrowlen (by rw [hplen]; exact hbound _ hr) hygt]
      exact hclean _ hylt (by omega))]
  simp

/-- Witness for C3: previous 2x2 buffer differs from the current one only in
cell index 2 (row 1), so only row 1 is rendered. -/
theorem single_cell_change_writes_one_row_witness :
    ((⟨⟨2, 2, [1, 2, 3, 4]⟩, initColPairs, (3 : Int)⟩ : DrawState).screenPrev.data.getD 2 0 ≠
        ((⟨2, 2, [1, 2, 9, 4]⟩ : TScreen).data.getD 2 0)) ∧
    (ImTui_ImplNcurses_DrawScreen ⟨⟨2, 2, [1, 2, 3, 4]⟩, initColPairs, 3⟩ ⟨2, 2, [1, 2, 9, 4]⟩ false).1 =
      (drawRow initColPairs 1 (sliceRow [1, 2, 9, 4] 2 1)).1 :=
  ⟨by decide,
   single_cell_change_writes_one_row ⟨⟨2, 2, [1, 2, 3, 4]⟩, initColPairs, 3⟩
     ⟨2, 2, [1, 2, 9, 4]⟩ false 2 rfl rfl rfl rfl (by decide) (by decide)
     (by decide)⟩

/-- An existing association-list binding survives appending entries. -/
theorem lookup_append_of_some (p h : Nat) (l1 l2 : List (Nat × Nat))
    (hl : l1.lookup p = some h) : (l1 ++ l2).lookup p = some h := by
  induction l1 with
  | nil => simp [List.lookup] at hl
  | cons a t ih =>
    cases hpa : (p == a.1) with
    | true => simp [List.lookup, hpa] at hl ⊢; exact hl
    | false => simp [List.lookup, hpa] at hl ⊢; exact ih hl

/-- Looking up a key absent from the first list continues in the second. -/
theorem lookup_append_of_none (p : Nat) (l1 l2 : List (Nat × Nat))
    (hl : l1.lookup p = none) : (l1 ++ l2).lookup p = l2.lookup p := by
  induction l1 with
  | nil => simp
  | cons a t ih =>
    cases hpa : (p == a.1) with
    | true =>
      simp only [List.lookup, hpa] at hl
      exact Option.noConfusion hl
    | false =>
      simp only [List.cons_append, List.lookup, hpa] at hl ⊢
      exact ih hl

/-- Allocation of one pair never disturbs an existing cache binding. -/
theorem ensurePair_preserves (cp : ColPairState) (f b p h : Nat)
    (hl : cp.colPairs.lookup p = some h) :
    (ensurePair cp f b).1.colPairs.lookup p = some h := by
  unfold ensurePair
  dsimp only
  split
  · exact hl
  · exact lookup_append_of_some p h _ _ hl

/-- Allocation of one pair never decreases the handle counter. -/
theorem ensurePair_mono (cp : ColPairState) (f b : Nat) :
    cp.nColPairs ≤ (ensurePair cp f b).1.nColPairs := by
  unfold ensurePair
  dsimp only
  split
  · exact le_rfl
  · exact Nat.le_succ _

/-- The pair cache coming out of one cell step is the one `ensurePair`
produced. -/
theorem cellStep_cp (acc : RowAcc) (cell : Nat) :
    (cellStep acc cell).cp = (ensurePair acc.cp (cellFg cell) (cellBg cell)).1 := by
  unfold cellStep
  dsimp only
  split <;> rfl

/-- The cell loop preserves existing cache bindings. -/
theorem drawCells_preserves (cells : List Nat) :
    ∀ (acc : RowAcc) (p h : Nat), acc.cp.colPairs.lookup p = some h →
      (drawCells acc cells).cp.colPairs.lookup p = some h := by
  induction cells with
  | nil => intro acc p h hl; exact hl
  | cons cell rest ih =>
    intro acc p h hl
    rw [drawCells]
    exact ih _ p h (by rw [cellStep_cp]; exact ensurePair_preserves _ _ _ _ _ hl)

/-- The cell loop never decreases the handle counter. -/
theorem drawCells_mono (cells : List Nat) :
    ∀ acc : RowAcc, acc.cp.nColPairs ≤ (drawCells acc cells).cp.nColPairs := by
  induction cells with
  | nil => intro acc; exact le_rfl
  | cons cell rest ih =>
    intro acc
    rw [drawCells]
    refine le_trans ?_ (ih _)
    rw [cellStep_cp]
    exact ensurePair_mono _ _ _

/-- The row loop preserves existing cache bindings. -/
theorem drawRows_preserves (screen : TScreen) (c : Bool) (ys : List Nat) :
    ∀ (acc : DrawAcc) (p h : Nat), acc.cp.colPairs.lookup p = some h →
      (drawRows screen c acc ys).cp.colPairs.lookup p = some h := by
  induction ys with
  | nil => intro acc p h hl; exact hl
  | cons y ys ih =>
    intro acc p h hl
    rw [drawRows]
    refine ih _ p h ?_
    unfold drawRowStep
    dsimp only
    split
    · exact hl
    · exact drawCells_preserves _ _ p h hl

/-- The row loop never decreases the handle counter. -/
theorem drawRows_mono (screen : TScreen) (c : Bool) (ys : List Nat) :
    ∀ acc : DrawAcc, acc.cp.nColPairs ≤ (drawRows screen c acc ys).cp.nColPairs := by
  induction ys with
  | nil => intro acc; exact le_rfl
  | cons y ys ih =>
    intro acc
    rw [drawRows]
    refine le_trans ?_ (ih _)
    unfold drawRowStep
    dsimp only
    split
    · exact le_rfl
    · dsimp only
      unfold drawRow
      dsimp only
      exact drawCells_mono (sliceRow screen.data screen.nx y)
        ⟨[WriteOp.moveTo y], acc.cp, 4294967295, []⟩

/-- C9: the color-pair cache is monotone. An already-cached pair is reused
with no `init_pair` call and no state change; a pair seen for the first time
is allocated the handle `nColPairs`, which becomes its cached binding while
the counter increments; and across any whole `ImTui_ImplNcurses_DrawScreen`
call, every existing binding survives with the same handle and the counter
never decreases. -/
theorem colpair_cache_monotone :
    (∀ (cp : ColPairState) (f b h : Nat),
      cp.colPairs.lookup (b * 256 + f) = some h → ensurePair cp f b = (cp, h, [])) ∧
    (∀ (cp : ColPairState) (f b : Nat),
      cp.colPairs.lookup (b * 256 + f) = none →
        (ensurePair cp f b).1.colPairs.lookup (b * 256 + f) = some cp.nColPairs ∧
        (ensurePair cp f b).1.nColPairs = cp.nColPairs + 1 ∧
        (ensurePair cp f b).2.1 = cp.nColPairs ∧
        (ensurePair cp f b).2.2 = [WriteOp.allocPair cp.nColPairs f b]) ∧
    (∀ (st : DrawState) (screen : TScreen) (active : Bool) (p h : Nat),
      st.cp.colPairs.lookup p = some h →
        (ImTui_ImplNcurses_DrawScreen st screen active).2.1.cp.colPairs.lookup p = some h) ∧
    (∀ (st : DrawState) (screen : TScreen) (active : Bool),
      st.cp.nColPairs ≤ (ImTui_ImplNcurses_DrawScreen st screen active).2.1.cp.nColPairs) := by
  refine ⟨?_, ?_, ?_, ?_⟩
  · intro cp f b h hl
    unfold ensurePair
    dsimp only
    rw [hl]
  · intro cp f b hl
    unfold ensurePair
    dsimp only
    rw [hl]
    refine ⟨?_, rfl, rfl, rfl⟩
    rw [lookup_append_of_none _ _ _ hl]
    simp [List.lookup]
  · intro st screen active p h hl
    unfold ImTui_ImplNcurses_DrawScreen
    dsimp only
    exact drawRows_preserves _ _ _ _ p h hl
  · intro st screen active
    unfold ImTui_ImplNcurses_DrawScreen
    dsimp only
    exact drawRows_mono screen _ (List.range screen.ny) ⟨[], st.cp, st.screenPrev.data⟩

/-- Witness for C9: a concrete cached binding is reused as-is, and survives a
concrete draw call with its handle intact. -/
theorem colpair_cache_monotone_witness :
    ((⟨[(7, 3)], 5⟩ : ColPairState).colPairs.lookup (0 * 256 + 7) = some 3 ∧
      ensurePair ⟨[(7, 3)], 5⟩ 7 0 = (⟨[(7, 3)], 5⟩, 3, [])) ∧
    ((⟨⟨0, 0, []⟩, ⟨[(7, 3)], 5⟩, 2⟩ : DrawState).cp.colPairs.lookup 7 = some 3 ∧
      (ImTui_ImplNcurses_DrawScreen ⟨⟨0, 0, []⟩, ⟨[(7, 3)], 5⟩, 2⟩ ⟨1, 1, [9]⟩ true).2.1.cp.colPairs.lookup 7 = some 3) :=
  ⟨⟨by decide, colpair_cache_monotone.1 ⟨[(7, 3)], 5⟩ 7 0 3 (by decide)⟩,
   ⟨by decide, colpair_cache_monotone.2.2.1 ⟨⟨0, 0, []⟩, ⟨[(7, 3)], 5⟩, 2⟩ ⟨1, 1, [9]⟩ true 7 3 (by decide)⟩⟩

/-- C10: the byte placed into the row run is the low 8 bits of the cell's
16-bit character code when that code is nonzero, and a space (32) when it is
zero; a nonzero code that is a multiple of 256 therefore contributes a NUL
byte, and a NUL byte inside the accumulated run makes `addstr` stop there,
truncating the row's emitted string early (shown concretely on the row
`[65, 256, 66]`, whose final run emits only the byte 65). -/
theorem cell_byte_truncation :
    (∀ cell : Nat, cellChar cell > 0 → cellByte cell = cellChar cell % 256) ∧
    (∀ cell : Nat, cellChar cell = 0 → cellByte cell = 32) ∧
    (∀ cell k : Nat, cellChar cell = 256 * k → 0 < k → cellByte cell = 0) ∧
    (∀ xs ys : List Nat, flushRun (xs ++ 0 :: ys) = flushRun xs) ∧
    ((drawRow initColPairs 0 [65, 256, 66]).1 =
      [WriteOp.moveTo 0, WriteOp.allocPair 1 0 0, WriteOp.emit [], WriteOp.setPair 1,
       WriteOp.emit [65]]) := by
  refine ⟨?_, ?_, ?_, ?_, by decide⟩
  · intro cell hc
    unfold cellByte
    rw [if_pos hc]
  · intro cell hc
    unfold cellByte
    rw [if_neg (by omega)]
  · intro cell k hck hk
    unfold cellByte
    rw [if_pos (by omega), hck, Nat.mul_mod_right]
  · intro xs ys
    unfold flushRun
    induction xs with
    | nil => simp [List.takeWhile]
    | cons x xs ih =>
      cases hx : (x != 0) with
      | false => simp [List.takeWhile, hx]
      | true => simp [List.takeWhile, hx, ih]

/-- Witness for C10: the byte of a printable code, of an unset cell, and of a
code that is a nonzero multiple of 256. -/
theorem cell_byte_truncation_witness :
    (cellChar 462 > 0 ∧ cellByte 462 = 462 % 256) ∧
    (cellChar 4294901760 = 0 ∧ cellByte 4294901760 = 32) ∧
    (cellChar 256 = 256 * 1 ∧ cellByte 256 = 0) :=
  ⟨⟨by decide, cell_byte_truncation.1 462 (by decide)⟩,
   ⟨by decide, cell_byte_truncation.2.1 4294901760 (by decide)⟩,
   ⟨by decide, cell_byte_truncation.2.2.1 256 1 (by decide) (by decide)⟩⟩

/-! ## Frame pacer (struct VSync, lines 47-97)

The real `wait` busy-waits on the wall clock, polling for input at
sub-interval granularity and sleeping between polls; real time is not
statable, so the loop is abstracted to its outcome: `earlyInput = true`
models the code path in which `wgetch` returned a pending character during
the wait (the function then returns with `tNext_us` untouched, line 75),
and `earlyInput = false` models the wait running to completion
(`tNext_us += tStep_us`, line 87). The current time `tNow_us` is read at
entry (line 62) but never used to compute the release deadline
`tNextCur_us = tNext_us + tStep_us` (line 65), which the theorems below
make explicit. Timestamps are `uint64_t`, hence the `% U64`. -/

/-- The modulus of `uint64_t` arithmetic. -/
def U64 : Nat := 18446744073709551616

/-- Pacer state: the two tick intervals and the next scheduled tick. -/
structure VSync where
  tStepActive_us : Nat
  tStepIdle_us : Nat
  tNext_us : Nat
deriving DecidableEq, Repr

/-- The interval chosen for one wait (line 64). -/
def VSync.step (s : VSync) (active : Bool) : Nat :=
  if active then s.tStepActive_us else s.tStepIdle_us

/-- The release deadline `tNextCur_us = tNext_us + tStep_us` (line 65).
`tNow_us` is in scope at that point in the source but unused. -/
def VSync.deadline (s : VSync) (active : Bool) (tNow_us : Nat) : Nat :=
  (s.tNext_us + s.step active) % U64

/-- One call to `VSync::wait` (lines 61-88), with the waiting loop abstracted
to its outcome (see the section comment). -/
def VSync.wait (s : VSync) (active : Bool) (tNow_us : Nat) (earlyInput : Bool) : VSync :=
  if earlyInput then s
  else { s with tNext_us := (s.tNext_us + s.step active) % U64 }

/-- A sequence of waits, each running to completion. -/
def waitRun (s : VSync) : List Bool → VSync
  | [] => s
  | a :: rest => waitRun (s.wait a 0 false) rest

/-- A wait never changes the chosen-interval function. -/
theorem VSync.wait_step (s : VSync) (a : Bool) (t : Nat) (e b : Bool) :
    (s.wait a t e).step b = s.step b := by
  cases e <;> rfl

/-- Completed waits accumulate the chosen intervals onto the scheduled tick,
modulo 64-bit wraparound. -/
theorem waitRun_tNext (acts : List Bool) :
    ∀ s : VSync, s.tNext_us < U64 →
      (waitRun s acts).tNext_us = (s.tNext_us + (acts.map s.step).sum) % U64 := by
  induction acts with
  | nil =>
    intro s hs
    rw [waitRun]
    simp [Nat.mod_eq_of_lt hs]
  | cons a rest ih =>
    intro s hs
    rw [waitRun]
    have hstep : (s.wait a 0 false).step = s.step :=
      funext (fun b => VSync.wait_step s a 0 false b)
    have h1 : (s.wait a 0 false).tNext_us = (s.tNext_us + s.step a) % U64 := by
      unfold VSync.wait
      simp
    have h2 := ih (s.wait a 0 false)
      (by rw [h1]; exact Nat.mod_lt _ (by unfold U64; omega))
    rw [hstep] at h2
    rw [h2, h1, List.map_cons, List.sum_cons, Nat.mod_add_mod]
    congr 1
    omega

/-- C4: `VSync::wait` computes the release deadline by adding the chosen
interval to the previously scheduled tick `tNext_us`, not to the current
time (the result is independent of `tNow_us`), and a wait that completes
without input advances the scheduled tick by exactly that interval; hence
over a sequence of completed waits the scheduled tick equals the initial
tick plus the sum of the chosen intervals, independent of per-frame
processing delay. -/
theorem vsync_fixed_grid (s : VSync) (a : Bool) (t1 t2 : Nat) (acts : List Bool)
    (hlt : s.tNext_us < U64)
    (hof : s.tNext_us + (acts.map s.step).sum < U64) :
    s.deadline a t1 = s.deadline a t2 ∧
    s.wait a t1 false = s.wait a t2 false ∧
    (s.wait a t1 false).tNext_us = (s.tNext_us + s.step a) % U64 ∧
    (waitRun s acts).tNext_us = s.tNext_us + (acts.map s.step).sum := by
  refine ⟨rfl, rfl, by unfold VSync.wait; simp, ?_⟩
  rw [waitRun_tNext acts s hlt, Nat.mod_eq_of_lt hof]

/-- Witness for C4: three completed waits (active, idle, active) from tick 5
land exactly at 5 plus the sum of the three chosen intervals. -/
theorem vsync_fixed_grid_witness :
    ((⟨16667, 100000, 5⟩ : VSync).tNext_us < U64 ∧
      (⟨16667, 100000, 5⟩ : VSync).tNext_us +
        (([true, false, true].map (VSync.step ⟨16667, 100000, 5⟩)).sum) < U64) ∧
    (waitRun ⟨16667, 100000, 5⟩ [true, false, true]).tNext_us =
      (⟨16667, 100000, 5⟩ : VSync).tNext_us +
        (([true, false, true].map (VSync.step ⟨16667, 100000, 5⟩)).sum) :=
  ⟨⟨by decide, by decide⟩,
   (vsync_fixed_grid ⟨16667, 100000, 5⟩ true 0 1 [true, false, true]
     (by decide) (by decide)).2.2.2⟩

/-! ## The sticky active window (lines 333, 339, 414) -/

/-- The values `ImTui_ImplNcurses_DrawScreen` computes from `nActiveFrames`:
the stored decrement and the flag `nActiveFrames --> 0` handed to the
pacer. -/
theorem drawScreen_nAF (st : DrawState) (s : TScreen) (active : Bool) :
    (ImTui_ImplNcurses_DrawScreen st s active).2.1.nActiveFrames =
      (if active then 10 else st.nActiveFrames) - 1 ∧
    (ImTui_ImplNcurses_DrawScreen st s active).2.2 =
      decide ((if active then (10 : Int) else st.nActiveFrames) > 0) := by
  unfold ImTui_ImplNcurses_DrawScreen
  exact ⟨rfl, rfl⟩

/-- The pacer flag of each draw call in a sequence of calls. -/
def drawFlags (st : DrawState) : List (TScreen × Bool) → List Bool
  | [] => []
  | f :: fs =>
    let r := ImTui_ImplNcurses_DrawScreen st f.1 f.2
    r.2.2 :: drawFlags r.2.1 fs

/-- With `active = false` throughout, the pacer flag of the i-th call is
`nActiveFrames - i > 0`. -/
theorem drawFlags_idle (scrs : List TScreen) :
    ∀ st : DrawState, drawFlags st (scrs.zip (List.replicate scrs.length false)) =
      (List.range scrs.length).map
        (fun (i : Nat) => decide (0 < st.nActiveFrames - (i : Int))) := by
  induction scrs with
  | nil => intro st; rfl
  | cons s rest ih =>
    intro st
    have hIf : (if (false = true) then (10 : Int) else st.nActiveFrames) =
        st.nActiveFrames := rfl
    rw [List.length_cons, List.replicate_succ, List.zip_cons_cons, drawFlags]
    dsimp only
    rw [ih, (drawScreen_nAF st s false).1, (drawScreen_nAF st s false).2,
      List.range_succ_eq_map, List.map_cons, List.map_map, hIf]
    refine congrArg₂ List.cons ?_ ?_
    · rw [decide_eq_decide]
      push_cast
      omega
    · apply List.map_congr_left
      intro i _
      simp only [Function.comp_apply]
      rw [decide_eq_decide]
      push_cast
      omega

/-- C8: after a call to `ImTui_ImplNcurses_DrawScreen` with `active = true`,
the pacer is driven at the active rate for a window of 10 frames (that call
and the following calls, even with `active = false`), after which further
`active = false` calls decay to the idle rate. -/
theorem active_sticky_ten_frames (st : DrawState) (scrs : List TScreen) (n : Nat)
    (h : scrs.length = n + 1) :
    drawFlags st (scrs.zip (true :: List.replicate n false)) =
      (List.range (n + 1)).map (fun (i : Nat) => decide (i < 10)) := by
  cases scrs with
  | nil => simp at h
  | cons s rest =>
    have hlen : rest.length = n := by simpa using h
    subst hlen
    have hIf : (if (true = true) then (10 : Int) else st.nActiveFrames) = 10 := rfl
    rw [List.zip_cons_cons, drawFlags]
    dsimp only
    rw [(drawScreen_nAF st s true).2, drawFlags_idle rest _, (drawScreen_nAF st s true).1,
      List.range_succ_eq_map, List.map_cons, List.map_map, hIf]
    refine congrArg₂ List.cons ?_ ?_
    · rw [decide_eq_decide]
      omega
    · apply List.map_congr_left
      intro i _
      simp only [Function.comp_apply]
      rw [decide_eq_decide]
      push_cast
      omega

/-- Witness for C8: one active call followed by ten idle calls on an empty
screen yields the active-rate flag exactly ten times. -/
theorem active_sticky_ten_frames_witness :
    (List.replicate 11 (⟨0, 0, []⟩ : TScreen)).length = 10 + 1 ∧
    drawFlags ⟨⟨0, 0, []⟩, initColPairs, 4⟩
        ((List.replicate 11 (⟨0, 0, []⟩ : TScreen)).zip (true :: List.replicate 10 false)) =
      (List.range (10 + 1)).map (fun (i : Nat) => decide (i < 10)) :=
  ⟨by decide,
   active_sticky_ten_frames ⟨⟨0, 0, []⟩, initColPairs, 4⟩
     (List.replicate 11 ⟨0, 0, []⟩) 10 (by decide)⟩

/-! ## Input decoder (ImTui_ImplNcurses_NewFrame, lines 193-329)

The ncurses input queue is modelled as a list of events: a plain key code,
or a mouse event carrying the record that `getmouse` would return (`ok`
models `getmouse(&event) == OK`). `wgetch` on an exhausted queue returns
`ERR`, which is the empty-list case of the drain loop. Mouse-mask constants
are those of ncurses ABI 6 (`NCURSES_MOUSE_VERSION 2`, five bits per
button). -/

/-- The ncurses `KEY_MOUSE` key code (octal 0631). -/
def KEY_MOUSE : Nat := 409

/-- The ncurses `BUTTON1_RELEASED` mask bit. -/
def BUTTON1_RELEASED : Nat := 1

/-- The ncurses `BUTTON1_PRESSED` mask bit. -/
def BUTTON1_PRESSED : Nat := 2

/-- The ncurses `BUTTON2_RELEASED` mask bit. -/
def BUTTON2_RELEASED : Nat := 32

/-- The ncurses `BUTTON2_PRESSED` mask bit. -/
def BUTTON2_PRESSED : Nat := 64

/-- The ncurses `BUTTON3_RELEASED` mask bit. -/
def BUTTON3_RELEASED : Nat := 1024

/-- The ncurses `BUTTON3_PRESSED` mask bit. -/
def BUTTON3_PRESSED : Nat := 2048

/-- The ncurses `BUTTON4_PRESSED` mask bit (wheel up). -/
def BUTTON4_PRESSED : Nat := 65536

/-- The ncurses `BUTTON5_PRESSED` mask bit (wheel down). -/
def BUTTON5_PRESSED : Nat := 2097152

/-- The ncurses `BUTTON_CTRL` modifier mask bit. -/
def BUTTON_CTRL : Nat := 33554432

/-- The ncurses `BUTTON_SHIFT` modifier mask bit. -/
def BUTTON_SHIFT : Nat := 67108864

/-- The ncurses `BUTTON_ALT` modifier mask bit. -/
def BUTTON_ALT : Nat := 134217728

/-- One queued terminal input event. -/
inductive Ev where
  | key (c : Nat)
  | mouse (ok : Bool) (x y : Int) (bstate : Nat)
deriving DecidableEq, Repr

/-- The raw code `wgetch` returns for an event. -/
def evCode : Ev → Nat
  | Ev.key c => c
  | Ev.mouse _ _ _ _ => KEY_MOUSE

/-- The persistent statics of the decoder (lines 202-207): mouse position,
the three button-down flags (`int` 0/1), and the last mouse record's
`bstate`. -/
structure MouseState where
  mx : Int
  my : Int
  lbut : Nat
  rbut : Nat
  mbut : Nat
  mstate : Nat
deriving DecidableEq, Repr

/-- The `KeyMap` entries the decoder reads back from the GUI framework
(configured by `ImTui_ImplNcurses_Init`, lines 145-166). -/
structure KeyMap where
  enter : Nat
  delete : Nat
  backspace : Nat
  leftArrow : Nat
  rightArrow : Nat
  upArrow : Nat
  downArrow : Nat
deriving DecidableEq, Repr

/-- The key-map values installed by `ImTui_ImplNcurses_Init`. -/
def initKeyMap : KeyMap := ⟨10, 330, 263, 260, 261, 259, 258⟩

/-- The per-frame GUI input state the decoder writes: the set of key slots
pressed this frame (in order), the modifier flags, the wheel delta, and the
text-input stream (one entry per `AddInputCharactersUTF8` call, holding the
bytes of that call's C string). -/
structure GuiState where
  keysDown : List Nat
  keyCtrl : Bool
  keyShift : Bool
  keyAlt : Bool
  keySuper : Bool
  mouseWheel : Int
  textInput : List (List Nat)
deriving DecidableEq, Repr

/-- The per-frame reset (lines 212-222): all transient key/modifier/wheel
state cleared. -/
def initGuiState : GuiState := ⟨[], false, false, false, false, 0, []⟩

/-- A mouse record (lines 236-262): update the cached position and `mstate`,
set or clear each button flag from its pressed/released bit (released wins
when both are set, matching the statement order), accumulate the wheel
delta from the button-4/5 pressed bits, and OR the modifier bits into the
frame's modifier flags. -/
def procMouse (io : GuiState) (ms : MouseState) (x y : Int) (bstate : Nat) :
    MouseState × GuiState :=
  let lbut := if bstate &&& BUTTON1_PRESSED ≠ 0 then 1 else ms.lbut
  let lbut := if bstate &&& BUTTON1_RELEASED ≠ 0 then 0 else lbut
  let mbut := if bstate &&& BUTTON2_PRESSED ≠ 0 then 1 else ms.mbut
  let mbut := if bstate &&& BUTTON2_RELEASED ≠ 0 then 0 else mbut
  let rbut := if bstate &&& BUTTON3_PRESSED ≠ 0 then 1 else ms.rbut
  let rbut := if bstate &&& BUTTON3_RELEASED ≠ 0 then 0 else rbut
  let wheel := if bstate &&& BUTTON4_PRESSED ≠ 0 then io.mouseWheel + 1
               else if bstate &&& BUTTON5_PRESSED ≠ 0 then io.mouseWheel - 1
               else io.mouseWheel
  (⟨x, y, lbut, rbut, mbut, bstate⟩,
   { io with
     mouseWheel := wheel,
     keyCtrl := io.keyCtrl || (bstate &&& BUTTON_CTRL ≠ 0),
     keyShift := io.keyShift || (bstate &&& BUTTON_SHIFT ≠ 0),
     keyAlt := io.keyAlt || (bstate &&& BUTTON_ALT ≠ 0) })

/-- Control-character normalization (lines 272-275): codes 1-26 other than
tab (9), line feed (10) and carriage return (13) become the corresponding
letter with the ctrl flag. -/
def ctrlNorm (c : Nat) : Nat × Bool :=
  if 1 ≤ c ∧ c ≤ 26 ∧ c ≠ 9 ∧ c ≠ 10 ∧ c ≠ 13 then (96 + c, true) else (c, false)

/-- The bytes of one `AddInputCharactersUTF8(input)` call (lines 277-283):
`input[0] = c & 0xFF`, `input[1] = (c & 0xFF00) >> 8`, `input[2] = 0`,
and the reader stops at the first NUL byte. -/
def inputEntry (c : Nat) : List Nat :=
  List.takeWhile (fun b => b != 0) [c % 256, (c / 256) % 256]

/-- The key-slot dispatch chain (lines 285-314): the `KeysDown` index set
for a code, plus whether the branch synthesizes the shift modifier
(shifted-arrow codes 393/402/337/336). Unmatched codes use the raw code as
the slot. -/
def keySlot (km : KeyMap) (c : Nat) : Nat × Bool :=
  if c = 330 then (km.delete, false)
  else if c = 263 ∨ c = 330 ∨ c = 127 then (km.backspace, false)
  else if c = 393 then (km.leftArrow, true)
  else if c = 402 then (km.rightArrow, true)
  else if c = 337 then (km.upArrow, true)
  else if c = 336 then (km.downArrow, true)
  else if c = 263 then (km.backspace, false)
  else if c = 260 then (km.leftArrow, false)
  else if c = 261 then (km.rightArrow, false)
  else if c = 259 then (km.upArrow, false)
  else if c = 258 then (km.downArrow, false)
  else (c, false)

/-- Processing of one normalized key code (lines 277-314): append to the
text-input stream when the code is below 127 and differs from the
configured Enter key, then set the dispatched key slot. -/
def procKey (km : KeyMap) (io : GuiState) (c : Nat) : GuiState :=
  let io1 := if c < 127 ∧ c ≠ km.enter
             then { io with textInput := io.textInput ++ [inputEntry c] }
             else io
  let s := keySlot km c
  { io1 with keysDown := io1.keysDown ++ [s.1], keyShift := io1.keyShift || s.2 }

/-- A non-mouse code after the escape-prefix step (lines 272-314): apply the
control-character normalization, record the alt/ctrl modifiers, and process
the key. -/
def procAfterEsc (km : KeyMap) (io : GuiState) (c : Nat) (alt : Bool) : GuiState :=
  let n := ctrlNorm c
  procKey km { io with keyAlt := alt, keyCtrl := io.keyCtrl || n.2 } n.1

/-- The `ERR` exit of the drain loop (lines 227-233): when the low four
bits of the last mouse record's `bstate` equal `BUTTON1_RELEASED`, all
three button flags are cleared. -/
def endDrain (ms : MouseState) : MouseState :=
  if ms.mstate &&& 15 = 1 then { ms with lbut := 0, rbut := 0, mbut := 0 } else ms

/-- The drain loop of `ImTui_ImplNcurses_NewFrame` (lines 224-318): read
codes until `ERR`; a `KEY_MOUSE` code reads the mouse record (ignored when
`getmouse` fails); an escape (27) immediately followed by another code sets
the alt modifier and consumes that next code as the real key, while a lone
escape is processed as code 27 itself. -/
def frameLoop (km : KeyMap) : List Ev → MouseState → GuiState → MouseState × GuiState
  | [], ms, io => (endDrain ms, io)
  | Ev.mouse ok x y bs :: rest, ms, io =>
      if ok then
        let r := procMouse io ms x y bs
        frameLoop km rest r.1 r.2
      else frameLoop km rest ms io
  | Ev.key c :: rest, ms, io =>
      if c = KEY_MOUSE then frameLoop km rest ms io
      else if c = 27 then
        match rest with
        | [] => (endDrain ms, procAfterEsc km io 27 io.keyAlt)
        | e2 :: r2 => frameLoop km r2 ms (procAfterEsc km io (evCode e2) true)
      else frameLoop km rest ms (procAfterEsc km io c io.keyAlt)

/-- Model of `ImTui_ImplNcurses_NewFrame`: drain the queued events starting
from the per-frame reset GUI state, and report whether any input was
observed (line 317: `hasInput` is set once per drained event). -/
def ImTui_ImplNcurses_NewFrame (km : KeyMap) (ms : MouseState) (evs : List Ev) :
    MouseState × GuiState × Bool :=
  let r := frameLoop km evs ms initGuiState
  (r.1, r.2, !evs.isEmpty)

/-- One drain step on a plain key code (neither `KEY_MOUSE` nor escape). -/
theorem frameLoop_key_plain (km : KeyMap) (ms : MouseState) (io : GuiState)
    (c : Nat) (rest : List Ev) (h409 : c ≠ KEY_MOUSE) (h27 : c ≠ 27) :
    frameLoop km (Ev.key c :: rest) ms io =
      frameLoop km rest ms (procAfterEsc km io c io.keyAlt) := by
  rw [frameLoop.eq_def]
  dsimp only
  rw [if_neg h409, if_neg h27]

/-- One drain step on an escape followed by another queued event. -/
theorem frameLoop_esc_pair (km : KeyMap) (ms : MouseState) (io : GuiState)
    (e2 : Ev) (r2 : List Ev) :
    frameLoop km (Ev.key 27 :: e2 :: r2) ms io =
      frameLoop km r2 ms (procAfterEsc km io (evCode e2) true) := rfl

/-- One drain step on a lone trailing escape. -/
theorem frameLoop_esc_lone (km : KeyMap) (ms : MouseState) (io : GuiState) :
    frameLoop km [Ev.key 27] ms io = (endDrain ms, procAfterEsc km io 27 io.keyAlt) := rfl

/-- `procKey` appends exactly one key slot and never touches the alt flag. -/
theorem procKey_keysDown_keyAlt (km : KeyMap) (io : GuiState) (c : Nat) :
    (procKey km io c).keysDown = io.keysDown ++ [(keySlot km c).1] ∧
    (procKey km io c).keyAlt = io.keyAlt := by
  unfold procKey
  dsimp only
  split <;> exact ⟨rfl, rfl⟩

/-- The alt flag coming out of `procAfterEsc` is the one passed in. -/
theorem procAfterEsc_keyAlt (km : KeyMap) (io : GuiState) (c : Nat) (alt : Bool) :
    (procAfterEsc km io c alt).keyAlt = alt := by
  unfold procAfterEsc
  exact (procKey_keysDown_keyAlt km _ _).2

/-- The key slot coming out of `procAfterEsc`. -/
theorem procAfterEsc_keysDown (km : KeyMap) (io : GuiState) (c : Nat) (alt : Bool) :
    (procAfterEsc km io c alt).keysDown =
      io.keysDown ++ [(keySlot km (ctrlNorm c).1).1] := by
  unfold procAfterEsc
  exact (procKey_keysDown_keyAlt km _ _).1

/-- C5: an escape code immediately followed by a second code in the same
poll batch is consumed as one logical key event with the alt modifier set,
the second code becoming the processed key; a lone escape produces a plain
key event for raw code 27 (which is the configured Escape key slot) with no
alt modifier. -/
theorem escape_prefix_alt_modifier (km : KeyMap) (ms : MouseState) (c2 : Nat) :
    ((frameLoop km [Ev.key 27, Ev.key c2] ms initGuiState).2.keyAlt = true ∧
     (frameLoop km [Ev.key 27, Ev.key c2] ms initGuiState).2.keysDown =
       [(keySlot km (ctrlNorm c2).1).1]) ∧
    ((frameLoop km [Ev.key 27] ms initGuiState).2.keyAlt = false ∧
     (frameLoop km [Ev.key 27] ms initGuiState).2.keysDown = [27]) := by
  refine ⟨⟨?_, ?_⟩, ?_, ?_⟩
  · rw [frameLoop_esc_pair]
    show (endDrain ms, procAfterEsc km initGuiState c2 true).2.keyAlt = true
    exact procAfterEsc_keyAlt km initGuiState c2 true
  · rw [frameLoop_esc_pair]
    show (endDrain ms, procAfterEsc km initGuiState c2 true).2.keysDown = _
    rw [procAfterEsc_keysDown]
    rfl
  · rw [frameLoop_esc_lone]
    exact procAfterEsc_keyAlt km initGuiState 27 initGuiState.keyAlt
  · rw [frameLoop_esc_lone]
    rw [procAfterEsc_keysDown]
    rfl

/-- A drain consisting only of key codes never touches the persistent mouse
state except through the `ERR`-exit cleanup. -/
theorem frameLoop_keys_endDrain (km : KeyMap) :
    ∀ (n : Nat) (cs : List Nat), cs.length ≤ n → ∀ (ms : MouseState) (io : GuiState),
      (frameLoop km (cs.map Ev.key) ms io).1 = endDrain ms := by
  intro n
  induction n with
  | zero =>
    intro cs hcs ms io
    have hnil : cs = [] := List.eq_nil_of_length_eq_zero (Nat.le_zero.mp hcs)
    subst hnil
    rfl
  | succ n ih =>
    intro cs hcs ms io
    match cs with
    | [] => rfl
    | c :: cs' =>
      by_cases h409 : c = KEY_MOUSE
      · subst h409
        rw [List.map_cons, frameLoop.eq_def]
        dsimp only
        rw [if_pos rfl]
        exact ih cs' (by simpa using Nat.succ_le_succ_iff.mp hcs) ms io
      · by_cases h27 : c = 27
        · subst h27
          match cs' with
          | [] => rfl
          | c2 :: cs'' =>
            rw [List.map_cons, List.map_cons, frameLoop_esc_pair]
            exact ih (cs''.map Ev.key |> fun _ => cs'') (by simp at hcs ⊢; omega) ms _
        · rw [List.map_cons, frameLoop_key_plain km ms io c _ h409 h27]
          exact ih cs' (by simpa using Nat.succ_le_succ_iff.mp hcs) ms _

/-- C6 (amended): a mouse record's press bit sets and its release bit clears
the corresponding persistent button flag; frames containing only key events
change the persistent mouse state exactly by the end-of-drain rule — they
leave position and all three flags unchanged whenever the last mouse
record's low four `bstate` bits differ from `BUTTON1_RELEASED`; and a left
press followed, frames later, by a left release toggles the left flag on
then off with intervening key-only frames changing nothing. -/
theorem mouse_button_state_persistence (km : KeyMap) (ms : MouseState) (cs : List Nat)
    (x y : Int) :
    ((frameLoop km [Ev.mouse true x y BUTTON1_PRESSED] ms initGuiState).1 =
      ⟨x, y, 1, ms.rbut, ms.mbut, BUTTON1_PRESSED⟩) ∧
    ((frameLoop km [Ev.mouse true x y BUTTON1_RELEASED] ms initGuiState).1 =
      ⟨x, y, 0, 0, 0, BUTTON1_RELEASED⟩) ∧
    ((frameLoop km (cs.map Ev.key) ms initGuiState).1 = endDrain ms) ∧
    (ms.mstate &&& 15 ≠ 1 → (frameLoop km (cs.map Ev.key) ms initGuiState).1 = ms) ∧
    ((frameLoop km (cs.map Ev.key)
        (frameLoop km [Ev.mouse true x y BUTTON1_PRESSED] ms initGuiState).1
        initGuiState).1 = ⟨x, y, 1, ms.rbut, ms.mbut, BUTTON1_PRESSED⟩ ∧
      (frameLoop km [Ev.mouse true x y BUTTON1_RELEASED]
        (frameLoop km (cs.map Ev.key)
          (frameLoop km [Ev.mouse true x y BUTTON1_PRESSED] ms initGuiState).1
          initGuiState).1 initGuiState).1.lbut = 0) := by
  have hpress : (frameLoop km [Ev.mouse true x y BUTTON1_PRESSED] ms initGuiState).1 =
      ⟨x, y, 1, ms.rbut, ms.mbut, BUTTON1_PRESSED⟩ := by
    show (endDrain (procMouse initGuiState ms x y BUTTON1_PRESSED).1, _).1 = _
    unfold procMouse endDrain BUTTON1_PRESSED BUTTON1_RELEASED BUTTON2_PRESSED
      BUTTON2_RELEASED BUTTON3_PRESSED BUTTON3_RELEASED
    dsimp only
    rw [if_pos (show (2 : Nat) &&& 2 ≠ 0 by decide),
      if_neg (show ¬((2 : Nat) &&& 1 ≠ 0) by decide),
      if_neg (show ¬((2 : Nat) &&& 64 ≠ 0) by decide),
      if_neg (show ¬((2 : Nat) &&& 32 ≠ 0) by decide),
      if_neg (show ¬((2 : Nat) &&& 2048 ≠ 0) by decide),
      if_neg (show ¬((2 : Nat) &&& 1024 ≠ 0) by decide),
      if_neg (show ¬((2 : Nat) &&& 15 = 1) by decide)]
  have hrel : ∀ ms' : MouseState,
      (frameLoop km [Ev.mouse true x y BUTTON1_RELEASED] ms' initGuiState).1 =
        ⟨x, y, 0, 0, 0, BUTTON1_RELEASED⟩ := by
    intro ms'
    show (endDrain (procMouse initGuiState ms' x y BUTTON1_RELEASED).1, _).1 = _
    unfold procMouse endDrain BUTTON1_PRESSED BUTTON1_RELEASED BUTTON2_PRESSED
      BUTTON2_RELEASED BUTTON3_PRESSED BUTTON3_RELEASED
    dsimp only
    rw [if_neg (show ¬((1 : Nat) &&& 2 ≠ 0) by decide),
      if_pos (show (1 : Nat) &&& 1 ≠ 0 by decide),
      if_neg (show ¬((1 : Nat) &&& 64 ≠ 0) by decide),
      if_neg (show ¬((1 : Nat) &&& 32 ≠ 0) by decide),
      if_neg (show ¬((1 : Nat) &&& 2048 ≠ 0) by decide),
      if_neg (show ¬((1 : Nat) &&& 1024 ≠ 0) by decide),
      if_pos (show (1 : Nat) &&& 15 = 1 by decide)]
  have hkeys : ∀ ms' : MouseState,
      (frameLoop km (cs.map Ev.key) ms' initGuiState).1 = endDrain ms' :=
    fun ms' => frameLoop_keys_endDrain km cs.length cs le_rfl ms' initGuiState
  have hmid : (frameLoop km (cs.map Ev.key)
      (⟨x, y, 1, ms.rbut, ms.mbut, BUTTON1_PRESSED⟩ : MouseState) initGuiState).1 =
      ⟨x, y, 1, ms.rbut, ms.mbut, BUTTON1_PRESSED⟩ := by
    rw [hkeys]
    unfold endDrain BUTTON1_PRESSED
    dsimp only
    rw [if_neg (show ¬((2 : Nat) &&& 15 = 1) by decide)]
  refine ⟨hpress, hrel ms, hkeys ms, ?_, ?_, ?_⟩
  · intro hm
    rw [hkeys]
    unfold endDrain
    rw [if_neg hm]
  · rw [hpress, hmid]
  · rw [hpress, hmid, hrel]

/-- Witness for C6 (amended) at concrete values: starting from cleared mouse
state, a left press, two intervening plain key frames, then a left
release. -/
theorem mouse_button_state_persistence_witness :
    ((frameLoop initKeyMap [Ev.mouse true 3 4 BUTTON1_PRESSED] ⟨0, 0, 0, 0, 0, 0⟩
        initGuiState).1 = ⟨3, 4, 1, 0, 0, BUTTON1_PRESSED⟩) ∧
    ((frameLoop initKeyMap ([97, 98].map Ev.key) ⟨0, 0, 0, 0, 0, 0⟩ initGuiState).1 =
      ⟨0, 0, 0, 0, 0, 0⟩) :=
  ⟨(mouse_button_state_persistence initKeyMap ⟨0, 0, 0, 0, 0, 0⟩ [97, 98] 3 4).1,
   (mouse_button_state_persistence initKeyMap ⟨0, 0, 0, 0, 0, 0⟩ [97, 98] 3 4).2.2.2.1
     (by decide)⟩

/-- C6 counterexample: the claim that the persistent flags change only when
a mouse record reports the corresponding press or release is false. A
button-3 press sets `rbut`; a later record whose `bstate` is exactly
`BUTTON1_RELEASED` (which carries no button-3 bit) makes the end-of-drain
cleanup clear `rbut` as well. -/
theorem mouse_button_rbut_cleared_counterexample :
    ((frameLoop initKeyMap [Ev.mouse true 0 0 BUTTON3_PRESSED] ⟨0, 0, 0, 0, 0, 0⟩
        initGuiState).1.rbut = 1) ∧
    ((frameLoop initKeyMap [Ev.mouse true 0 0 BUTTON1_RELEASED]
        (frameLoop initKeyMap [Ev.mouse true 0 0 BUTTON3_PRESSED] ⟨0, 0, 0, 0, 0, 0⟩
          initGuiState).1 initGuiState).1.rbut = 0) ∧
    (BUTTON3_PRESSED &&& BUTTON3_RELEASED = 0 ∧
      BUTTON1_RELEASED &&& BUTTON3_RELEASED = 0) := by
  decide

/-- C7: a decoded key code (after normalization) is appended to the
text-input stream exactly when it is below the threshold 127 and differs
from the configured Enter key code; codes equal to Enter or at/above the
threshold are never appended. -/
theorem text_input_threshold (km : KeyMap) (io : GuiState) (c : Nat) :
    ((procKey km io c).textInput =
      io.textInput ++ (if c < 127 ∧ c ≠ km.enter then [inputEntry c] else [])) ∧
    ((c = km.enter ∨ 127 ≤ c) → (procKey km io c).textInput = io.textInput) := by
  constructor
  · unfold procKey
    dsimp only
    split <;> simp
  · intro hc
    have hno : ¬(c < 127 ∧ c ≠ km.enter) := by
      rcases hc with h | h
      · intro hcontra; exact hcontra.2 h
      · intro hcontra; omega
    unfold procKey
    dsimp only
    rw [if_neg hno]

/-- Witness for C7: code 200 is at/above the threshold, so nothing is
appended; code 97 is below it and distinct from Enter, so one entry is. -/
theorem text_input_threshold_witness :
    ((procKey initKeyMap initGuiState 97).textInput =
      initGuiState.textInput ++
        (if 97 < 127 ∧ 97 ≠ initKeyMap.enter then [inputEntry 97] else [])) ∧
    (((200 : Nat) = initKeyMap.enter ∨ 127 ≤ 200) →
      (procKey initKeyMap initGuiState 200).textInput = initGuiState.textInput) :=
  ⟨(text_input_threshold initKeyMap initGuiState 97).1,
   (text_input_threshold initKeyMap initGuiState 200).2⟩

end ImtuiNcurses
